import Mathlib

/-!
Verification of the wasm-chess move-calculation core (`src/lib.rs`).

The rules engine (the `chess` crate: board representation, legal-move
enumeration, move application, game-status classification) is an external
collaborator of the verified core.  It is modelled abstractly by a `Rules`
structure; the board's piece placement and side to move — the only parts the
evaluator inspects directly — are modelled concretely by `Board`.

All arithmetic in the source is `i32`/`u32` with values far below any
overflow bound (piece counts over 64 squares, scores within ±10000), so the
embedding uses `Int`/`Nat` directly.
-/

namespace WasmChess

open BigOperators

/-- Piece colors, as in `chess::Color`. -/
inductive Color where
  | White
  | Black
deriving DecidableEq, Repr

/-- Piece kinds, as in `chess::Piece`. -/
inductive Piece where
  | Pawn
  | Knight
  | Bishop
  | Rook
  | Queen
  | King
deriving DecidableEq, Repr

/-- Game status, as in `chess::BoardStatus`. -/
inductive BoardStatus where
  | Ongoing
  | Stalemate
  | Checkmate
deriving DecidableEq, Repr

/-- A chess move as produced by the rules engine's move generator
(`chess::ChessMove`): source square, destination square, optional
promotion piece.  Squares are indexed 0–63, A1 = 0, H8 = 63, as in the
`chess` crate.  The core treats moves opaquely. -/
structure Move where
  source : Fin 64
  dest : Fin 64
  promotion : Option Piece
deriving DecidableEq, Repr

/-- The board state the evaluator reads: at most one piece per square
(the `chess` crate's bitboard invariant), plus the side to move.
`occupant sq = some (c, pc)` means a piece `pc` of color `c` stands on
square `sq`. -/
structure Board where
  occupant : Fin 64 → Option (Color × Piece)
  sideToMove : Color

/-- The external rules engine: legal-move enumeration (`MoveGen::new_legal`),
move application (`Board::make_move_new`), and status classification
(`Board::status`).  The verified core consumes these as opaque services. -/
structure Rules where
  legalMoves : Board → List Move
  applyMove : Board → Move → Board
  status : Board → BoardStatus

/-- Number of squares holding a piece of the given color and kind:
the model of `popcnt(color_combined(c) & pieces(pc))`. -/
def countSq (p : Board) (c : Color) (pc : Piece) : Nat :=
  (Finset.univ.filter (fun sq : Fin 64 => p.occupant sq = some (c, pc))).card

/-- White's material total, as summed in `piece_score`:
`5*rooks + pawns + 3*bishops + 9*queens + 3*knights`. -/
def whiteScoreN (p : Board) : Nat :=
  5 * countSq p Color.White Piece.Rook
    + countSq p Color.White Piece.Pawn
    + 3 * countSq p Color.White Piece.Bishop
    + 9 * countSq p Color.White Piece.Queen
    + 3 * countSq p Color.White Piece.Knight

/-- Black's material total, as summed in `piece_score`. -/
def blackScoreN (p : Board) : Nat :=
  5 * countSq p Color.Black Piece.Rook
    + countSq p Color.Black Piece.Pawn
    + 3 * countSq p Color.Black Piece.Bishop
    + 9 * countSq p Color.Black Piece.Queen
    + 3 * countSq p Color.Black Piece.Knight

/-- `piece_score` from `src/lib.rs`: the white material total minus the
black material total, after each `u32` total is cast to `i32`. -/
def piece_score (p : Board) : Int :=
  (whiteScoreN p : Int) - (blackScoreN p : Int)

/-- Model of `popcnt(color_combined(c) & BitBoard::from_square(sq))`:
1 if a piece of color `c` stands on `sq`, else 0. -/
def occIs (p : Board) (c : Color) (sq : Fin 64) : Nat :=
  match p.occupant sq with
  | some (c', _) => if c' = c then 1 else 0
  | none => 0

/-- `central_control` from `src/lib.rs`: the sum over the four center
squares E4 (28), D4 (27), E5 (36), D5 (35) of the White occupation
indicators minus the Black occupation indicators, in the source's order. -/
def central_control (p : Board) : Int :=
  (occIs p Color.White 28 : Int) + (occIs p Color.White 27 : Int)
    + (occIs p Color.White 36 : Int) + (occIs p Color.White 35 : Int)
    + -(occIs p Color.Black 28 : Int) + -(occIs p Color.Black 27 : Int)
    + -(occIs p Color.Black 36 : Int) + -(occIs p Color.Black 35 : Int)

/-- `position_evaluation` from `src/lib.rs`: 0 for stalemate, −10000 /
+10000 for a checkmated White / Black side to move, otherwise
`10 * piece_score + central_control`. -/
def position_evaluation (R : Rules) (p : Board) : Int :=
  if R.status p ≠ BoardStatus.Ongoing then
    if R.status p = BoardStatus.Stalemate then 0
    else if p.sideToMove = Color.White then -10000 else 10000
  else 10 * piece_score p + central_control p

/-- The White (maximizing) loop body of `minimax_alpha_beta`: fold over the
remaining legal moves carrying `tracking_alpha` and `max_eval`, breaking
out as soon as `beta ≤ tracking_alpha`.  `f m ta` is the recursive search
of the child reached by `m` under window `(ta, beta)`. -/
def abLoopW (f : Move → Int → Int) (beta : Int) :
    List Move → Int → Int → Int
  | [], _, maxEval => maxEval
  | m :: ms, ta, maxEval =>
      let e := f m ta
      let maxEval' := max e maxEval
      let ta' := max ta e
      if beta ≤ ta' then maxEval' else abLoopW f beta ms ta' maxEval'

/-- The Black (minimizing) loop body of `minimax_alpha_beta`: fold carrying
`tracking_beta` and `min_eval`, breaking as soon as
`tracking_beta ≤ alpha`. -/
def abLoopB (f : Move → Int → Int) (alpha : Int) :
    List Move → Int → Int → Int
  | [], _, minEval => minEval
  | m :: ms, tb, minEval =>
      let e := f m tb
      let minEval' := min e minEval
      let tb' := min tb e
      if tb' ≤ alpha then minEval' else abLoopB f alpha ms tb' minEval'

/-- `minimax_alpha_beta` from `src/lib.rs`: depth-limited minimax with
alpha-beta pruning.  At depth 0 or on a finished position it returns the
static evaluation; otherwise White maximizes starting from `max_eval =
-10000`, Black minimizes starting from `min_eval = 10000`, each recursing
at `depth - 1` with the flipped color. -/
def minimax_alpha_beta (R : Rules) : Board → Nat → Int → Int → Color → Int
  | p, 0, _, _, _ => position_evaluation R p
  | p, d + 1, alpha, beta, c =>
      if R.status p ≠ BoardStatus.Ongoing then position_evaluation R p
      else
        match c with
        | Color.White =>
            abLoopW
              (fun m ta =>
                minimax_alpha_beta R (R.applyMove p m) d ta beta Color.Black)
              beta (R.legalMoves p) alpha (-10000)
        | Color.Black =>
            abLoopB
              (fun m tb =>
                minimax_alpha_beta R (R.applyMove p m) d alpha tb Color.White)
              alpha (R.legalMoves p) beta 10000

/-- The same search with pruning disabled: unbounded alpha/beta at every
node, so the early-exit branch never fires and every legal move is
examined.  Initial accumulators (−10000 for White, 10000 for Black) and
the `max eval acc` / `min eval acc` updates are exactly those of
`minimax_alpha_beta`. -/
def minimax_no_prune (R : Rules) : Board → Nat → Color → Int
  | p, 0, _ => position_evaluation R p
  | p, d + 1, c =>
      if R.status p ≠ BoardStatus.Ongoing then position_evaluation R p
      else
        match c with
        | Color.White =>
            (R.legalMoves p).foldl
              (fun acc m =>
                max (minimax_no_prune R (R.applyMove p m) d Color.Black) acc)
              (-10000)
        | Color.Black =>
            (R.legalMoves p).foldl
              (fun acc m =>
                min (minimax_no_prune R (R.applyMove p m) d Color.White) acc)
              10000

/-- The error kind of the top-level operation (spec §7): the source panics
on `best_move.unwrap()` when no candidate move was found; the embedding
returns this error instead. -/
inductive SearchError where
  | NoLegalMoves
deriving DecidableEq, Repr

/-- The score the move selector assigns to candidate move `m`:
`minimax_alpha_beta(new_position, depth, -10000, 10000,
new_position.side_to_move())`. -/
def rootScore (R : Rules) (current : Board) (depth : Nat) (m : Move) : Int :=
  minimax_alpha_beta R (R.applyMove current m) depth (-10000) 10000
    (R.applyMove current m).sideToMove

/-- One iteration of the selector's candidate loop in
`get_best_move_minimax_alpha_beta`: score the candidate `m` (by `score`,
the full alpha-beta search of the resulting position) and keep it only
when its score strictly improves on the incumbent's — strictly greater
when `side` (the original side to move) is White, strictly smaller when
Black — otherwise keep the incumbent; the first candidate always becomes
the incumbent. -/
def selStep (score : Move → Int) (side : Color) :
    Option (Move × Int) → Move → Option (Move × Int) := fun best m =>
  let eval := score m
  match best with
  | some (bm, topEval) =>
      if (side = Color.White ∧ eval > topEval)
          ∨ (side = Color.Black ∧ eval < topEval) then
        some (m, eval)
      else some (bm, topEval)
  | none => some (m, eval)

/-- `get_best_move_minimax_alpha_beta` from `src/lib.rs`, after FEN parsing
(external to the core): iterate over the legal moves, score each by a full
alpha-beta search on the resulting position (`rootScore`), and keep the
best-scoring candidate (`selStep`).  The final `unwrap` panic is modelled
as `SearchError.NoLegalMoves`; the formatting of the returned move as
`"<source> <dest>"` is the trailing external step and not modelled. -/
def get_best_move_minimax_alpha_beta (R : Rules) (current : Board)
    (depth : Nat) : Except SearchError Move :=
  match (R.legalMoves current).foldl
      (selStep (rootScore R current depth) current.sideToMove) none with
  | some (m, _) => Except.ok m
  | none => Except.error SearchError.NoLegalMoves

/-! ### Spec-side definitions (used to state refinement claims) -/

/-- The spec's piece values: pawn = 1, knight = 3, bishop = 3, rook = 5,
queen = 9; the king is excluded (value 0). -/
def pieceValue : Piece → Nat
  | Piece.Pawn => 1
  | Piece.Knight => 3
  | Piece.Bishop => 3
  | Piece.Rook => 5
  | Piece.Queen => 9
  | Piece.King => 0

/-- The spec's per-side material total: the sum of `pieceValue` over the
side's pieces, square by square. -/
def materialTotal (p : Board) (c : Color) : Nat :=
  ∑ sq : Fin 64,
    (match p.occupant sq with
     | some (c', pc) => if c' = c then pieceValue pc else 0
     | none => 0)

/-- The spec's `material_score`: White's material total minus Black's. -/
def material_score_spec (p : Board) : Int :=
  (materialTotal p Color.White : Int) - (materialTotal p Color.Black : Int)

/-- The four center squares of the spec's `positional_score`: the central
2×2 block d4 (27), e4 (28), d5 (35), e5 (36). -/
def centerSquares : List (Fin 64) := [27, 28, 35, 36]

/-- The spec's count of pieces of one color occupying a center square,
each square contributing at most once. -/
def centerCount (p : Board) (c : Color) : Nat :=
  centerSquares.countP (fun sq => (p.occupant sq).map Prod.fst == some c)

/-- Indicator (0 or 1) that a piece of color `c` occupies square `sq`. -/
def indC (p : Board) (c : Color) (sq : Fin 64) : Nat :=
  if (p.occupant sq).map Prod.fst = some c then 1 else 0

/-- The opposite color. -/
def Color.other : Color → Color
  | Color.White => Color.Black
  | Color.Black => Color.White

/-- Negate (swap) the colors of all pieces on the board. -/
def swapColors (p : Board) : Board :=
  { occupant := fun sq => (p.occupant sq).map (fun cp => (Color.other cp.1, cp.2))
    sideToMove := p.sideToMove }

/-! ### Concrete sample data (for evaluating the theorems on closed inputs) -/

/-- A board with no pieces, White to move. -/
def emptyBoard : Board :=
  { occupant := fun _ => none, sideToMove := Color.White }

/-- A board with no pieces, Black to move. -/
def emptyBoardBlack : Board :=
  { occupant := fun _ => none, sideToMove := Color.Black }

/-- A rules engine that classifies every position as stalemate with no
legal moves. -/
def stalemateRules : Rules :=
  { legalMoves := fun _ => []
    applyMove := fun b _ => b
    status := fun _ => BoardStatus.Stalemate }

/-- A rules engine that classifies every position as checkmate with no
legal moves. -/
def checkmateRules : Rules :=
  { legalMoves := fun _ => []
    applyMove := fun b _ => b
    status := fun _ => BoardStatus.Checkmate }

/-- A rules engine that classifies every position as ongoing with no
legal moves. -/
def ongoingRules : Rules :=
  { legalMoves := fun _ => []
    applyMove := fun b _ => b
    status := fun _ => BoardStatus.Ongoing }

/-- A sample move from square 0 to square 1. -/
def sampleMove : Move := { source := 0, dest := 1, promotion := none }

/-- A second sample move, from square 2 to square 3. -/
def sampleMove2 : Move := { source := 2, dest := 3, promotion := none }

/-- A rules engine with a single legal move everywhere, whose application
leaves the board unchanged; every position is ongoing. -/
def oneMoveRules : Rules :=
  { legalMoves := fun _ => [sampleMove]
    applyMove := fun b _ => b
    status := fun _ => BoardStatus.Ongoing }

/-- The move selector's strict-improvement test, as written in
`get_best_move_minimax_alpha_beta`: a candidate with score `x` replaces the
incumbent with score `y` iff White is to move and `x > y`, or Black is to
move and `x < y`. -/
abbrev selBetter (side : Color) (x y : Int) : Prop :=
  (side = Color.White ∧ x > y) ∨ (side = Color.Black ∧ x < y)

/-- Fail-soft alpha-beta contract for a search returning `r` against the
pruning-free value `v` under window `(a, b)`: a result inside the window
is exact, a result at or below `a` is an upper bound on `v`, a result at
or above `b` is a lower bound on `v`. -/
abbrev failSoft (r v a b : Int) : Prop :=
  (r ≤ a → v ≤ r) ∧ (b ≤ r → r ≤ v) ∧ (a < r → r < b → r = v)

/-! ### Evaluator lemmas -/

theorem countSq_eq_sum (p : Board) (c : Color) (pc : Piece) :
    countSq p c pc
      = ∑ sq : Fin 64, (if p.occupant sq = some (c, pc) then 1 else 0) := by
  unfold countSq
  rw [Finset.card_filter]

theorem scoreN_eq_materialTotal (p : Board) (c : Color) :
    5 * countSq p c Piece.Rook + countSq p c Piece.Pawn
      + 3 * countSq p c Piece.Bishop + 9 * countSq p c Piece.Queen
      + 3 * countSq p c Piece.Knight = materialTotal p c := by
  simp only [countSq_eq_sum, Finset.mul_sum, ← Finset.sum_add_distrib,
    materialTotal]
  refine Finset.sum_congr rfl ?_
  intro sq _
  rcases h : p.occupant sq with _ | ⟨c', pc'⟩
  · simp [h]
  · by_cases hc : c' = c
    · subst hc
      cases pc' <;> simp [h, pieceValue]
    · simp [h, hc]

theorem materialTotal_le (p : Board) (c : Color) : materialTotal p c ≤ 576 := by
  unfold materialTotal
  have h : ∀ sq : Fin 64,
      (match p.occupant sq with
       | some (c', pc) => if c' = c then pieceValue pc else 0
       | none => 0) ≤ 9 := by
    intro sq
    rcases h : p.occupant sq with _ | ⟨c', pc'⟩
    · simp
    · by_cases hc : c' = c
      · cases pc' <;> simp [hc, pieceValue]
      · simp [hc]
  calc (∑ sq : Fin 64,
          (match p.occupant sq with
           | some (c', pc) => if c' = c then pieceValue pc else 0
           | none => 0))
      ≤ ∑ _sq : Fin 64, 9 := Finset.sum_le_sum (fun sq _ => h sq)
    _ = 576 := by simp

theorem piece_score_eq_spec (p : Board) :
    piece_score p = material_score_spec p := by
  unfold piece_score material_score_spec whiteScoreN blackScoreN
  rw [scoreN_eq_materialTotal, scoreN_eq_materialTotal]

theorem piece_score_bounds (p : Board) :
    -576 ≤ piece_score p ∧ piece_score p ≤ 576 := by
  rw [piece_score_eq_spec]
  unfold material_score_spec
  have h1 := materialTotal_le p Color.White
  have h2 := materialTotal_le p Color.Black
  omega

theorem occIs_eq_indC (p : Board) (c : Color) (sq : Fin 64) :
    occIs p c sq = indC p c sq := by
  unfold occIs indC
  rcases h : p.occupant sq with _ | ⟨c', pc'⟩
  · simp [h]
  · by_cases hc : c' = c <;> simp [h, hc]

theorem indC_le_one (p : Board) (c : Color) (sq : Fin 64) :
    indC p c sq ≤ 1 := by
  unfold indC
  split <;> omega

theorem centerCount_eq (p : Board) (c : Color) :
    centerCount p c = indC p c 27 + indC p c 28 + indC p c 35 + indC p c 36 := by
  have key : ∀ sq : Fin 64,
      (if ((p.occupant sq).map Prod.fst == some c) then 1 else 0)
        = indC p c sq := by
    intro sq
    unfold indC
    by_cases h : (p.occupant sq).map Prod.fst = some c <;> simp [h]
  unfold centerCount centerSquares
  simp only [List.countP_cons, List.countP_nil, key]
  omega

theorem c7_helper_central (p : Board) :
    central_control p
      = (indC p Color.White 28 : Int) + (indC p Color.White 27 : Int)
        + (indC p Color.White 36 : Int) + (indC p Color.White 35 : Int)
        - (indC p Color.Black 28 : Int) - (indC p Color.Black 27 : Int)
        - (indC p Color.Black 36 : Int) - (indC p Color.Black 35 : Int) := by
  unfold central_control
  simp only [occIs_eq_indC]
  ring

theorem central_control_bounds (p : Board) :
    -4 ≤ central_control p ∧ central_control p ≤ 4 := by
  rw [c7_helper_central p]
  have a1 := indC_le_one p Color.White 28
  have a2 := indC_le_one p Color.White 27
  have a3 := indC_le_one p Color.White 36
  have a4 := indC_le_one p Color.White 35
  have b1 := indC_le_one p Color.Black 28
  have b2 := indC_le_one p Color.Black 27
  have b3 := indC_le_one p Color.Black 36
  have b4 := indC_le_one p Color.Black 35
  omega

theorem position_evaluation_bounds (R : Rules) (p : Board) :
    -10000 ≤ position_evaluation R p ∧ position_evaluation R p ≤ 10000 := by
  have hps := piece_score_bounds p
  have hcc := central_control_bounds p
  unfold position_evaluation
  split
  · split
    · omega
    · split <;> omega
  · omega

theorem countSq_swap (p : Board) (c : Color) (pc : Piece) :
    countSq (swapColors p) c pc = countSq p (Color.other c) pc := by
  unfold countSq
  congr 1
  apply Finset.filter_congr
  intro sq _
  rcases h : p.occupant sq with _ | ⟨c', pc'⟩ <;> simp [swapColors, h]
  cases c <;> cases c' <;> simp [Color.other]

/-- C3: a Stalemate position evaluates to 0, and a Checkmate position
evaluates to −10000 when White is to move and to +10000 when Black is to
move. -/
theorem c3_terminal_eval (R : Rules) (p : Board) :
    (R.status p = BoardStatus.Stalemate → position_evaluation R p = 0)
      ∧ (R.status p = BoardStatus.Checkmate → p.sideToMove = Color.White →
          position_evaluation R p = -10000)
      ∧ (R.status p = BoardStatus.Checkmate → p.sideToMove = Color.Black →
          position_evaluation R p = 10000) := by
  refine ⟨fun h => ?_, fun h hw => ?_, fun h hb => ?_⟩
  · simp [position_evaluation, h]
  · simp [position_evaluation, h, hw]
  · simp [position_evaluation, h, hb]

theorem c3_terminal_eval_witness :
    position_evaluation stalemateRules emptyBoard = 0
      ∧ position_evaluation checkmateRules emptyBoard = -10000
      ∧ position_evaluation checkmateRules emptyBoardBlack = 10000 :=
  ⟨(c3_terminal_eval stalemateRules emptyBoard).1 rfl,
    (c3_terminal_eval checkmateRules emptyBoard).2.1 rfl rfl,
    (c3_terminal_eval checkmateRules emptyBoardBlack).2.2 rfl rfl⟩

/-- C4: an Ongoing position evaluates to `10 * material_score +
positional_score`, where the material score sums the values pawn = 1,
knight = 3, bishop = 3, rook = 5, queen = 9 (king excluded) over each
side's pieces and subtracts Black's total from White's. -/
theorem c4_ongoing_eval (R : Rules) (p : Board)
    (h : R.status p = BoardStatus.Ongoing) :
    position_evaluation R p
      = 10 * material_score_spec p + central_control p := by
  simp [position_evaluation, h, piece_score_eq_spec]

theorem c4_ongoing_eval_witness :
    ongoingRules.status emptyBoard = BoardStatus.Ongoing
      ∧ position_evaluation ongoingRules emptyBoard
        = 10 * material_score_spec emptyBoard + central_control emptyBoard :=
  ⟨rfl, c4_ongoing_eval ongoingRules emptyBoard rfl⟩

/-- C6: swapping the colors of all pieces on a board negates the material
score. -/
theorem c6_material_symmetry (p : Board) :
    piece_score (swapColors p) = -piece_score p := by
  unfold piece_score whiteScoreN blackScoreN
  simp only [countSq_swap, Color.other]
  push_cast
  ring

/-- C7: the positional score equals the number of White pieces on the four
center squares d4, e4, d5, e5 minus the number of Black pieces on those
squares, each square contributing at most once; nothing else enters. -/
theorem c7_positional_score (p : Board) :
    central_control p
      = (centerCount p Color.White : Int) - (centerCount p Color.Black : Int) := by
  rw [c7_helper_central p, centerCount_eq, centerCount_eq]
  push_cast
  ring

/-- C8: the evaluation of any Ongoing position lies strictly within
(−9999, 9999), so the sentinel magnitudes ±10000 occur only for
checkmate.  Proved for every board, a superset of the reachable ones. -/
theorem c8_eval_within_sentinels (R : Rules) (p : Board)
    (h : R.status p = BoardStatus.Ongoing) :
    -9999 < position_evaluation R p ∧ position_evaluation R p < 9999 := by
  have hps := piece_score_bounds p
  have hcc := central_control_bounds p
  simp only [position_evaluation, h]
  norm_num
  omega

theorem c8_eval_within_sentinels_witness :
    ongoingRules.status emptyBoard = BoardStatus.Ongoing
      ∧ -9999 < position_evaluation ongoingRules emptyBoard
      ∧ position_evaluation ongoingRules emptyBoard < 9999 :=
  ⟨rfl, c8_eval_within_sentinels ongoingRules emptyBoard rfl⟩

/-! ### Search base-case and recursion-shape lemmas -/

/-- C5: at depth 0 the search returns the static evaluation for any bounds
`a < b` and either side, and on a finished position it returns the static
evaluation at every depth; the side parameter is ignored at such terminal
nodes because the result does not depend on it. -/
theorem c5_depth_zero_and_terminal (R : Rules) (p : Board) (a b : Int)
    (c : Color) (d : Nat) (hab : a < b) :
    minimax_alpha_beta R p 0 a b c = position_evaluation R p
      ∧ (R.status p ≠ BoardStatus.Ongoing →
          minimax_alpha_beta R p d a b c = position_evaluation R p) := by
  refine ⟨rfl, fun h => ?_⟩
  cases d
  · rfl
  · simp [minimax_alpha_beta, h]

theorem c5_depth_zero_and_terminal_witness :
    (-1 : Int) < 1
      ∧ minimax_alpha_beta stalemateRules emptyBoard 0 (-1) 1 Color.White
          = position_evaluation stalemateRules emptyBoard
      ∧ minimax_alpha_beta stalemateRules emptyBoard 5 (-1) 1 Color.White
          = position_evaluation stalemateRules emptyBoard :=
  ⟨by decide,
    (c5_depth_zero_and_terminal stalemateRules emptyBoard (-1) 1 Color.White 5
        (by decide)).1,
    (c5_depth_zero_and_terminal stalemateRules emptyBoard (-1) 1 Color.White 5
        (by decide)).2 (by decide)⟩

/-- C10: the search recursion is well-founded on depth.  Depth 0 and
finished positions return immediately with the static evaluation, and at
depth `d ≠ 0` on an ongoing position the result is computed from recursive
calls made at depth exactly `d - 1` (so the `u32` subtraction `depth - 1`
is evaluated only under the `depth ≠ 0` guard and never underflows); in
the embedding `minimax_alpha_beta` is a total function. -/
theorem c10_termination_structure (R : Rules) (p : Board) (d : Nat)
    (a b : Int) (c : Color) :
    minimax_alpha_beta R p 0 a b c = position_evaluation R p
      ∧ (R.status p ≠ BoardStatus.Ongoing →
          minimax_alpha_beta R p d a b c = position_evaluation R p)
      ∧ (d ≠ 0 → R.status p = BoardStatus.Ongoing →
          minimax_alpha_beta R p d a b c
            = match c with
              | Color.White =>
                  abLoopW
                    (fun m ta =>
                      minimax_alpha_beta R (R.applyMove p m) (d - 1) ta b
                        Color.Black)
                    b (R.legalMoves p) a (-10000)
              | Color.Black =>
                  abLoopB
                    (fun m tb =>
                      minimax_alpha_beta R (R.applyMove p m) (d - 1) a tb
                        Color.White)
                    a (R.legalMoves p) b 10000) := by
  refine ⟨rfl, fun h => ?_, fun hd hst => ?_⟩
  · cases d
    · rfl
    · simp [minimax_alpha_beta, h]
  · cases d
    · exact absurd rfl hd
    · simp [minimax_alpha_beta, hst, Nat.succ_sub_one]

theorem c10_termination_structure_witness :
    minimax_alpha_beta oneMoveRules emptyBoard 0 (-2) 2 Color.White
        = position_evaluation oneMoveRules emptyBoard
      ∧ minimax_alpha_beta stalemateRules emptyBoard 7 (-2) 2 Color.Black
          = position_evaluation stalemateRules emptyBoard
      ∧ minimax_alpha_beta oneMoveRules emptyBoard 1 (-2) 2 Color.White
          = abLoopW
              (fun m ta =>
                minimax_alpha_beta oneMoveRules
                  (oneMoveRules.applyMove emptyBoard m) (1 - 1) ta 2
                  Color.Black)
              2 (oneMoveRules.legalMoves emptyBoard) (-2) (-10000) :=
  ⟨(c10_termination_structure oneMoveRules emptyBoard 0 (-2) 2 Color.White).1,
    (c10_termination_structure stalemateRules emptyBoard 7 (-2) 2
        Color.Black).2.1 (by decide),
    (c10_termination_structure oneMoveRules emptyBoard 1 (-2) 2
        Color.White).2.2 (by decide) rfl⟩

/-- C9: when the position is not Ongoing, or when an Ongoing position has
no legal moves, the top-level operation fails with `NoLegalMoves` and
returns no move.  The hypothesis `hre` records the rules engine's
guarantee that finished positions have no legal moves. -/
theorem c9_no_legal_moves_error (R : Rules) (p : Board) (d : Nat)
    (hre : R.status p ≠ BoardStatus.Ongoing → R.legalMoves p = [])
    (h : R.status p ≠ BoardStatus.Ongoing ∨ R.legalMoves p = []) :
    get_best_move_minimax_alpha_beta R p d
      = Except.error SearchError.NoLegalMoves := by
  have hmoves : R.legalMoves p = [] := by
    rcases h with h | h
    · exact hre h
    · exact h
  simp [get_best_move_minimax_alpha_beta, hmoves]

theorem c9_no_legal_moves_error_witness :
    get_best_move_minimax_alpha_beta stalemateRules emptyBoard 3
      = Except.error SearchError.NoLegalMoves :=
  c9_no_legal_moves_error stalemateRules emptyBoard 3 (fun _ => rfl)
    (Or.inl (by decide))

/-! ### Alpha-beta loop lemmas -/

theorem abLoopW_ge (f : Move → Int → Int) (b : Int) :
    ∀ (ms : List Move) (ta me : Int), me ≤ abLoopW f b ms ta me := by
  intro ms
  induction ms with
  | nil => intro ta me; simp [abLoopW]
  | cons m ms ih =>
      intro ta me
      simp only [abLoopW]
      split
      · omega
      · have := ih (max ta (f m ta)) (max (f m ta) me)
        omega

theorem abLoopW_le (f : Move → Int → Int) (b B : Int)
    (hf : ∀ m ta, f m ta ≤ B) :
    ∀ (ms : List Move) (ta me : Int), me ≤ B → abLoopW f b ms ta me ≤ B := by
  intro ms
  induction ms with
  | nil => intro ta me h; simpa [abLoopW] using h
  | cons m ms ih =>
      intro ta me h
      simp only [abLoopW]
      have hm := hf m ta
      split
      · omega
      · exact ih (max ta (f m ta)) (max (f m ta) me) (by omega)

theorem abLoopB_le (f : Move → Int → Int) (a : Int) :
    ∀ (ms : List Move) (tb me : Int), abLoopB f a ms tb me ≤ me := by
  intro ms
  induction ms with
  | nil => intro tb me; simp [abLoopB]
  | cons m ms ih =>
      intro tb me
      simp only [abLoopB]
      split
      · omega
      · have := ih (min tb (f m tb)) (min (f m tb) me)
        omega

theorem abLoopB_ge (f : Move → Int → Int) (a B : Int)
    (hf : ∀ m tb, B ≤ f m tb) :
    ∀ (ms : List Move) (tb me : Int), B ≤ me → B ≤ abLoopB f a ms tb me := by
  intro ms
  induction ms with
  | nil => intro tb me h; simpa [abLoopB] using h
  | cons m ms ih =>
      intro tb me h
      simp only [abLoopB]
      have hm := hf m tb
      split
      · omega
      · exact ih (min tb (f m tb)) (min (f m tb) me) (by omega)

theorem foldl_max_ge (g : Move → Int) :
    ∀ (ms : List Move) (acc : Int),
      acc ≤ List.foldl (fun acc m => max (g m) acc) acc ms := by
  intro ms
  induction ms with
  | nil => intro acc; simp
  | cons m ms ih =>
      intro acc
      simp only [List.foldl_cons]
      have := ih (max (g m) acc)
      omega

theorem foldl_max_le (g : Move → Int) (B : Int) (hg : ∀ m, g m ≤ B) :
    ∀ (ms : List Move) (acc : Int), acc ≤ B →
      List.foldl (fun acc m => max (g m) acc) acc ms ≤ B := by
  intro ms
  induction ms with
  | nil => intro acc h; simpa using h
  | cons m ms ih =>
      intro acc h
      simp only [List.foldl_cons]
      exact ih (max (g m) acc) (by have := hg m; omega)

theorem foldl_min_le (g : Move → Int) :
    ∀ (ms : List Move) (acc : Int),
      List.foldl (fun acc m => min (g m) acc) acc ms ≤ acc := by
  intro ms
  induction ms with
  | nil => intro acc; simp
  | cons m ms ih =>
      intro acc
      simp only [List.foldl_cons]
      have := ih (min (g m) acc)
      omega

theorem foldl_min_ge (g : Move → Int) (B : Int) (hg : ∀ m, B ≤ g m) :
    ∀ (ms : List Move) (acc : Int), B ≤ acc →
      B ≤ List.foldl (fun acc m => min (g m) acc) acc ms := by
  intro ms
  induction ms with
  | nil => intro acc h; simpa using h
  | cons m ms ih =>
      intro acc h
      simp only [List.foldl_cons]
      exact ih (min (g m) acc) (by have := hg m; omega)

theorem minimax_no_prune_bounds (R : Rules) :
    ∀ (d : Nat) (p : Board) (c : Color),
      -10000 ≤ minimax_no_prune R p d c ∧ minimax_no_prune R p d c ≤ 10000 := by
  intro d
  induction d with
  | zero => intro p c; exact position_evaluation_bounds R p
  | succ n ih =>
      intro p c
      simp only [minimax_no_prune]
      split
      · exact position_evaluation_bounds R p
      · cases c
        · constructor
          · exact foldl_max_ge _ _ _
          · exact foldl_max_le _ 10000
              (fun m => (ih (R.applyMove p m) Color.Black).2) _ _ (by omega)
        · constructor
          · exact foldl_min_ge _ (-10000)
              (fun m => (ih (R.applyMove p m) Color.White).1) _ _ (by omega)
          · exact foldl_min_le _ _ _

theorem minimax_alpha_beta_bounds (R : Rules) :
    ∀ (d : Nat) (p : Board) (a b : Int) (c : Color),
      -10000 ≤ minimax_alpha_beta R p d a b c
        ∧ minimax_alpha_beta R p d a b c ≤ 10000 := by
  intro d
  induction d with
  | zero => intro p a b c; exact position_evaluation_bounds R p
  | succ n ih =>
      intro p a b c
      simp only [minimax_alpha_beta]
      split
      · exact position_evaluation_bounds R p
      · cases c
        · constructor
          · exact abLoopW_ge _ _ _ _ _
          · exact abLoopW_le _ _ 10000
              (fun m ta => (ih (R.applyMove p m) ta b Color.Black).2) _ _ _
              (by omega)
        · constructor
          · exact abLoopB_ge _ _ (-10000)
              (fun m tb => (ih (R.applyMove p m) a tb Color.White).1) _ _ _
              (by omega)
          · exact abLoopB_le _ _ _ _ _

/-- Fail-soft invariant of the White (maximizing) loop: provided every
child search satisfies the fail-soft contract for its window, the loop
result satisfies it against the pruning-free fold, for any loop state
with `acc ≤ me ≤ ta < b` and `-10000 ≤ ta`. -/
theorem abLoopW_failSoft (f : Move → Int → Int) (g : Move → Int) (b : Int)
    (hf : ∀ m ta, -10000 ≤ ta → ta < b → failSoft (f m ta) (g m) ta b) :
    ∀ (ms : List Move) (ta me acc : Int), -10000 ≤ ta → ta < b → me ≤ ta →
      acc ≤ me →
      failSoft (abLoopW f b ms ta me)
        (List.foldl (fun acc m => max (g m) acc) acc ms) ta b := by
  intro ms
  induction ms with
  | nil =>
      intro ta me acc h0 hab hme hacc
      simp only [abLoopW, List.foldl_nil]
      exact ⟨fun _ => hacc, fun hr => by omega, fun h1 _ => by omega⟩
  | cons m ms ih =>
      intro ta me acc h0 hab hme hacc
      simp only [abLoopW, List.foldl_cons]
      have hfm := hf m ta h0 hab
      by_cases hcut : b ≤ max ta (f m ta)
      · rw [if_pos hcut]
        have hbe : b ≤ f m ta := by omega
        have hge : f m ta ≤ g m := hfm.2.1 hbe
        have hw := foldl_max_ge g ms (max (g m) acc)
        have hgacc : g m ≤ max (g m) acc := le_max_left _ _
        exact ⟨fun hr => by omega, fun _ => by omega, fun h1 h2 => by omega⟩
      · rw [if_neg hcut]
        push_neg at hcut
        have hgm : g m ≤ max (f m ta) me := by
          by_cases hle : f m ta ≤ ta
          · have := hfm.1 hle
            omega
          · push_neg at hle
            have hE : f m ta < b := by omega
            have := hfm.2.2 hle hE
            omega
        have hIH := ih (max ta (f m ta)) (max (f m ta) me) (max (g m) acc)
          (by omega) hcut (by omega) (by omega)
        refine ⟨fun hr => ?_, fun hr => ?_, fun h1 h2 => ?_⟩
        · exact hIH.1 (by omega)
        · exact hIH.2.1 hr
        · by_cases hr' : max ta (f m ta) < abLoopW f b ms (max ta (f m ta))
              (max (f m ta) me)
          · exact hIH.2.2 hr' h2
          · push_neg at hr'
            have hwle := hIH.1 hr'
            have hrge := abLoopW_ge f b ms (max ta (f m ta)) (max (f m ta) me)
            have hta : ta < f m ta := by omega
            have hre : abLoopW f b ms (max ta (f m ta)) (max (f m ta) me)
                = f m ta := by omega
            have hE : f m ta < b := by omega
            have hgv := hfm.2.2 hta hE
            have hwge := foldl_max_ge g ms (max (g m) acc)
            omega

/-- Fail-soft invariant of the Black (minimizing) loop, the mirror image
of `abLoopW_failSoft`: loop state satisfies `a < tb ≤ me ≤ acc` and
`tb ≤ 10000`. -/
theorem abLoopB_failSoft (f : Move → Int → Int) (g : Move → Int) (a : Int)
    (hf : ∀ m tb, a < tb → tb ≤ 10000 → failSoft (f m tb) (g m) a tb) :
    ∀ (ms : List Move) (tb me acc : Int), tb ≤ 10000 → a < tb → tb ≤ me →
      me ≤ acc →
      failSoft (abLoopB f a ms tb me)
        (List.foldl (fun acc m => min (g m) acc) acc ms) a tb := by
  intro ms
  induction ms with
  | nil =>
      intro tb me acc h0 hab hme hacc
      simp only [abLoopB, List.foldl_nil]
      exact ⟨fun hr => by omega, fun _ => hacc, fun _ h2 => by omega⟩
  | cons m ms ih =>
      intro tb me acc h0 hab hme hacc
      simp only [abLoopB, List.foldl_cons]
      have hfm := hf m tb hab h0
      by_cases hcut : min tb (f m tb) ≤ a
      · rw [if_pos hcut]
        have hbe : f m tb ≤ a := by omega
        have hge : g m ≤ f m tb := hfm.1 hbe
        have hw := foldl_min_le g ms (min (g m) acc)
        have hgacc : min (g m) acc ≤ g m := min_le_left _ _
        exact ⟨fun hr => by omega, fun hr => by omega, fun h1 h2 => by omega⟩
      · rw [if_neg hcut]
        push_neg at hcut
        have hgm : min (f m tb) me ≤ g m := by
          by_cases hle : tb ≤ f m tb
          · have := hfm.2.1 hle
            omega
          · push_neg at hle
            have hE : a < f m tb := by omega
            have := hfm.2.2 hE hle
            omega
        have hIH := ih (min tb (f m tb)) (min (f m tb) me) (min (g m) acc)
          (by omega) hcut (by omega) (by omega)
        refine ⟨fun hr => ?_, fun hr => ?_, fun h1 h2 => ?_⟩
        · exact hIH.1 hr
        · exact hIH.2.1 (by omega)
        · by_cases hr' : abLoopB f a ms (min tb (f m tb)) (min (f m tb) me)
              < min tb (f m tb)
          · exact hIH.2.2 h1 hr'
          · push_neg at hr'
            have hwge := hIH.2.1 hr'
            have hrle := abLoopB_le f a ms (min tb (f m tb)) (min (f m tb) me)
            have htb : f m tb < tb := by omega
            have hre : abLoopB f a ms (min tb (f m tb)) (min (f m tb) me)
                = f m tb := by omega
            have hE : a < f m tb := by omega
            have hgv := hfm.2.2 hE htb
            have hwle := foldl_min_le g ms (min (g m) acc)
            omega

/-- Fail-soft correctness of the whole search: for any window
`-10000 ≤ a < b ≤ 10000`, the alpha-beta result and the pruning-free
result satisfy the fail-soft contract. -/
theorem minimax_failSoft (R : Rules) :
    ∀ (d : Nat) (p : Board) (a b : Int) (c : Color),
      -10000 ≤ a → b ≤ 10000 → a < b →
      failSoft (minimax_alpha_beta R p d a b c) (minimax_no_prune R p d c)
        a b := by
  intro d
  induction d with
  | zero =>
      intro p a b c h0 h1 hab
      simp only [minimax_alpha_beta, minimax_no_prune]
      exact ⟨fun _ => le_refl _, fun _ => le_refl _, fun _ _ => rfl⟩
  | succ n ih =>
      intro p a b c h0 h1 hab
      simp only [minimax_alpha_beta, minimax_no_prune]
      by_cases hst : R.status p ≠ BoardStatus.Ongoing
      · rw [if_pos hst, if_pos hst]
        exact ⟨fun _ => le_refl _, fun _ => le_refl _, fun _ _ => rfl⟩
      · rw [if_neg hst, if_neg hst]
        cases c
        · exact abLoopW_failSoft
            (fun m ta =>
              minimax_alpha_beta R (R.applyMove p m) n ta b Color.Black)
            (fun m => minimax_no_prune R (R.applyMove p m) n Color.Black) b
            (fun m ta hta htb =>
              ih (R.applyMove p m) ta b Color.Black hta h1 htb)
            (R.legalMoves p) a (-10000) (-10000) h0 hab h0 (le_refl _)
        · exact abLoopB_failSoft
            (fun m tb =>
              minimax_alpha_beta R (R.applyMove p m) n a tb Color.White)
            (fun m => minimax_no_prune R (R.applyMove p m) n Color.White) a
            (fun m tb hta htb =>
              ih (R.applyMove p m) a tb Color.White h0 htb hta)
            (R.legalMoves p) b 10000 10000 h1 hab h1 (le_refl _)

/-- C1: with the unconstrained root window `(-10000, 10000)`, alpha-beta
pruning never changes the returned score — for every rules engine, every
position, every depth and either side to move, `minimax_alpha_beta` equals
the same depth-limited search with pruning disabled at every node. -/
theorem c1_pruning_equivalence (R : Rules) (p : Board) (d : Nat) (c : Color) :
    minimax_alpha_beta R p d (-10000) 10000 c = minimax_no_prune R p d c := by
  have hfs := minimax_failSoft R d p (-10000) 10000 c (le_refl _) (le_refl _)
    (by norm_num)
  have hab := minimax_alpha_beta_bounds R d p (-10000) 10000 c
  have hmm := minimax_no_prune_bounds R d p c
  rcases le_or_lt (minimax_alpha_beta R p d (-10000) 10000 c) (-10000) with
    h1 | h1
  · have := hfs.1 h1
    omega
  · rcases le_or_lt 10000 (minimax_alpha_beta R p d (-10000) 10000 c) with
      h2 | h2
    · have := hfs.2.1 h2
      omega
    · exact hfs.2.2 h1 h2

/-! ### Move-selector lemmas -/

theorem selBetter_irrefl (side : Color) (x : Int) : ¬ selBetter side x x := by
  rintro (⟨_, h⟩ | ⟨_, h⟩) <;> omega

theorem selBetter_asymm (side : Color) (x y : Int) :
    selBetter side x y → ¬ selBetter side y x := by
  intro h1 h2
  rcases h1 with ⟨hs1, h1⟩ | ⟨hs1, h1⟩ <;>
    rcases h2 with ⟨hs2, h2⟩ | ⟨hs2, h2⟩ <;>
    first
      | omega
      | (rw [hs1] at hs2; exact Color.noConfusion hs2)

theorem selBetter_trans (side : Color) (x y z : Int) :
    selBetter side x y → selBetter side y z → selBetter side x z := by
  intro h1 h2
  rcases h1 with ⟨hs1, h1⟩ | ⟨hs1, h1⟩ <;>
    rcases h2 with ⟨hs2, h2⟩ | ⟨hs2, h2⟩
  · exact Or.inl ⟨hs1, by omega⟩
  · rw [hs1] at hs2; exact Color.noConfusion hs2
  · rw [hs1] at hs2; exact Color.noConfusion hs2
  · exact Or.inr ⟨hs1, by omega⟩

theorem selBetter_mix (side : Color) (x y z : Int) :
    selBetter side x y → ¬ selBetter side z y → selBetter side x z := by
  intro h1 h2
  rcases h1 with ⟨hs1, h1⟩ | ⟨hs1, h1⟩
  · refine Or.inl ⟨hs1, ?_⟩
    have hzy : ¬ z > y := fun hzy => h2 (Or.inl ⟨hs1, hzy⟩)
    omega
  · refine Or.inr ⟨hs1, ?_⟩
    have hzy : ¬ z < y := fun hzy => h2 (Or.inr ⟨hs1, hzy⟩)
    omega

/-- Invariant of the selector's fold, starting from an incumbent `bm`:
the result is a scored candidate that either is the incumbent (nothing
later beat it) or is the first later candidate beating the incumbent,
beating everything before it and beaten by nothing. -/
theorem selectGo (score : Move → Int) (side : Color) :
    ∀ (l : List Move) (bm : Move),
      ∃ res,
        List.foldl (selStep score side) (some (bm, score bm)) l
          = some (res, score res)
        ∧ ((res = bm ∧ ∀ y ∈ l, ¬ selBetter side (score y) (score bm))
            ∨ (∃ l₁ l₂, l = l₁ ++ res :: l₂
                ∧ selBetter side (score res) (score bm)
                ∧ (∀ y ∈ l₁, selBetter side (score res) (score y))
                ∧ (∀ y ∈ l, ¬ selBetter side (score y) (score res)))) := by
  intro l
  induction l with
  | nil =>
      intro bm
      exact ⟨bm, rfl, Or.inl ⟨rfl, by simp⟩⟩
  | cons mv l' ih =>
      intro bm
      simp only [List.foldl_cons, selStep]
      by_cases h : selBetter side (score mv) (score bm)
      · rw [if_pos h]
        obtain ⟨res, hfold, hcase⟩ := ih mv
        refine ⟨res, hfold, Or.inr ?_⟩
        rcases hcase with ⟨hres, hall⟩ | ⟨l₁, l₂, hsp, hbb, hfirst, hall⟩
        · subst hres
          refine ⟨[], l', rfl, h, by simp, ?_⟩
          intro y hy
          rcases List.mem_cons.mp hy with hy | hy
          · subst hy; exact selBetter_irrefl side _
          · exact hall y hy
        · refine ⟨mv :: l₁, l₂, by simp [hsp],
            selBetter_trans side _ _ _ hbb h, ?_, ?_⟩
          · intro y hy
            rcases List.mem_cons.mp hy with hy | hy
            · subst hy; exact hbb
            · exact hfirst y hy
          · intro y hy
            rcases List.mem_cons.mp hy with hy | hy
            · subst hy; exact selBetter_asymm side _ _ hbb
            · exact hall y hy
      · rw [if_neg h]
        obtain ⟨res, hfold, hcase⟩ := ih bm
        refine ⟨res, hfold, ?_⟩
        rcases hcase with ⟨hres, hall⟩ | ⟨l₁, l₂, hsp, hbb, hfirst, hall⟩
        · refine Or.inl ⟨hres, ?_⟩
          intro y hy
          rcases List.mem_cons.mp hy with hy | hy
          · subst hy; exact h
          · exact hall y hy
        · refine Or.inr ⟨mv :: l₁, l₂, by simp [hsp], hbb, ?_, ?_⟩
          · intro y hy
            rcases List.mem_cons.mp hy with hy | hy
            · subst hy; exact selBetter_mix side _ _ _ hbb h
            · exact hfirst y hy
          · intro y hy
            rcases List.mem_cons.mp hy with hy | hy
            · subst hy
              intro hc
              exact h (selBetter_trans side _ _ _ hc hbb)
            · exact hall y hy

/-- The selector's fold over a nonempty candidate list returns the first
candidate achieving the optimum: it beats every earlier candidate strictly
and no candidate anywhere beats it. -/
theorem selectFold_first_max (score : Move → Int) (side : Color) :
    ∀ (l : List Move), l ≠ [] →
      ∃ res l₁ l₂,
        List.foldl (selStep score side) none l = some (res, score res)
        ∧ l = l₁ ++ res :: l₂
        ∧ (∀ y ∈ l₁, selBetter side (score res) (score y))
        ∧ (∀ y ∈ l, ¬ selBetter side (score y) (score res)) := by
  intro l hl
  rcases l with _ | ⟨mv, l'⟩
  · exact absurd rfl hl
  · simp only [List.foldl_cons, selStep]
    obtain ⟨res, hfold, hcase⟩ := selectGo score side l' mv
    rcases hcase with ⟨hres, hall⟩ | ⟨l₁, l₂, hsp, hbb, hfirst, hall⟩
    · subst hres
      refine ⟨_, [], l', hfold, rfl, by simp, ?_⟩
      intro y hy
      rcases List.mem_cons.mp hy with hy | hy
      · subst hy; exact selBetter_irrefl side _
      · exact hall y hy
    · refine ⟨res, mv :: l₁, l₂, hfold, by simp [hsp], ?_, ?_⟩
      · intro y hy
        rcases List.mem_cons.mp hy with hy | hy
        · subst hy; exact hbb
        · exact hfirst y hy
      · intro y hy
        rcases List.mem_cons.mp hy with hy | hy
        · subst hy; exact selBetter_asymm side _ _ hbb
        · exact hall y hy

/-- C2: on an Ongoing position with at least one legal move, the selector
returns a legal move; the returned move's search score is optimal for the
side to move (no candidate scores strictly higher when White is to move,
none strictly lower when Black is), and on ties the first-found candidate
in enumeration order is kept (every earlier candidate scores strictly
worse). -/
theorem c2_best_move_selection (R : Rules) (current : Board) (depth : Nat)
    (hst : R.status current = BoardStatus.Ongoing)
    (hne : R.legalMoves current ≠ []) :
    ∃ m, get_best_move_minimax_alpha_beta R current depth = Except.ok m
      ∧ m ∈ R.legalMoves current
      ∧ ∃ l₁ l₂, R.legalMoves current = l₁ ++ m :: l₂
        ∧ (current.sideToMove = Color.White →
            (∀ y ∈ R.legalMoves current,
              rootScore R current depth y ≤ rootScore R current depth m)
            ∧ ∀ y ∈ l₁,
              rootScore R current depth y < rootScore R current depth m)
        ∧ (current.sideToMove = Color.Black →
            (∀ y ∈ R.legalMoves current,
              rootScore R current depth m ≤ rootScore R current depth y)
            ∧ ∀ y ∈ l₁,
              rootScore R current depth m < rootScore R current depth y) := by
  obtain ⟨res, l₁, l₂, hfold, hsp, hfirst, hall⟩ :=
    selectFold_first_max (rootScore R current depth) current.sideToMove
      (R.legalMoves current) hne
  refine ⟨res, ?_, ?_, l₁, l₂, hsp, fun hw => ⟨?_, ?_⟩, fun hb => ⟨?_, ?_⟩⟩
  · simp only [get_best_move_minimax_alpha_beta]
    rw [hfold]
  · rw [hsp]
    exact List.mem_append_right _ (List.mem_cons_self _ _)
  · intro y hy
    have hny := hall y hy
    rw [hw] at hny
    simp [selBetter] at hny
    omega
  · intro y hy
    have hby := hfirst y hy
    rw [hw] at hby
    simp [selBetter] at hby
    omega
  · intro y hy
    have hny := hall y hy
    rw [hb] at hny
    simp [selBetter] at hny
    omega
  · intro y hy
    have hby := hfirst y hy
    rw [hb] at hby
    simp [selBetter] at hby
    omega

theorem c2_best_move_selection_witness :
    oneMoveRules.status emptyBoard = BoardStatus.Ongoing
      ∧ oneMoveRules.legalMoves emptyBoard ≠ []
      ∧ ∃ m,
          get_best_move_minimax_alpha_beta oneMoveRules emptyBoard 0
            = Except.ok m
          ∧ m ∈ oneMoveRules.legalMoves emptyBoard
          ∧ ∃ l₁ l₂, oneMoveRules.legalMoves emptyBoard = l₁ ++ m :: l₂
            ∧ (emptyBoard.sideToMove = Color.White →
                (∀ y ∈ oneMoveRules.legalMoves emptyBoard,
                  rootScore oneMoveRules emptyBoard 0 y
                    ≤ rootScore oneMoveRules emptyBoard 0 m)
                ∧ ∀ y ∈ l₁,
                  rootScore oneMoveRules emptyBoard 0 y
                    < rootScore oneMoveRules emptyBoard 0 m)
            ∧ (emptyBoard.sideToMove = Color.Black →
                (∀ y ∈ oneMoveRules.legalMoves emptyBoard,
                  rootScore oneMoveRules emptyBoard 0 m
                    ≤ rootScore oneMoveRules emptyBoard 0 y)
                ∧ ∀ y ∈ l₁,
                  rootScore oneMoveRules emptyBoard 0 m
                    < rootScore oneMoveRules emptyBoard 0 y) :=
  ⟨rfl, by decide,
    c2_best_move_selection oneMoveRules emptyBoard 0 rfl (by decide)⟩

end WasmChess
